import Mathlib

/-
  Verification development for the chain-state core of go-nebulas
  (core/blockchain.go).

  The Go code is shallowly embedded: hashes and keys are `Nat`, the
  hashicorp LRU caches are association lists in recency order, the
  durable key-value store is a record holding the block entries, the
  tail-pointer entry and the success behaviour of its `Put` operation,
  and every Go loop is a fuel-indexed recursion whose abnormal exits
  (process panics, "not found" errors, fuel exhaustion) are explicit
  `Except` results.  External collaborators (serialization, tries,
  the transaction pool) are abstracted exactly at the interface the
  spec names for them.
-/

deriving instance DecidableEq for Except

namespace NebulasChain

/-- A block: content hash, parent hash, monotonic height, the two
commitment roots, coinbase and transactions (transaction ids).
Mirrors the `Block` data model used by `core/blockchain.go`. -/
structure Block where
  hash : Nat
  parentHash : Nat
  height : Nat
  stateRoot : Nat
  txsRoot : Nat
  coinbase : Nat
  txs : List Nat
deriving DecidableEq, Repr

/-- A bounded, recency-ordered cache (hashicorp `lru.Cache`):
entries are key-block pairs, most recently used first. -/
structure LRUCache where
  capacity : Nat
  entries : List (Nat × Block)
deriving Repr

/-- The durable key-value store.  Block entries are keyed by block
hash; the tail pointer lives under the dedicated `Tail` key, kept as
a separate field because the ASCII constant key is disjoint from all
hash keys.  `putBlockOk` and `putTailOk` model whether a `Put` of the
given key succeeds; a failed put leaves the store unchanged. -/
structure Storage where
  blocks : List (Nat × Block)
  tailHash : Option Nat
  putBlockOk : Nat → Bool
  putTailOk : Bool

/-- The `BlockChain` core type (chain state container). -/
structure BlockChain where
  chainID : Nat
  genesisBlock : Block
  tailBlock : Block
  txPool : List Nat
  cachedBlocks : LRUCache
  detachedTailBlocks : LRUCache
  storage : Storage

/-- Modelled from the spec: the genesis block lives at a well-known
hash constant (`GenesisHash` in the repository, defined outside the
provided sources). -/
def GenesisHash : Nat := 1

/-- Modelled from the spec: `CheckGenesisBlock` recognises the genesis
block by its well-known hash constant. -/
def CheckGenesisBlock (b : Block) : Bool := b.hash == GenesisHash

/-- Modelled from the spec: `NewGenesisBlock` synthesizes the genesis
block — height 0, sentinel parent, no transactions — at the well-known
hash constant. -/
def NewGenesisBlock (_chainID : Nat) : Block :=
  { hash := GenesisHash, parentHash := 0, height := 0,
    stateRoot := 0, txsRoot := 0, coinbase := 0, txs := [] }

/-- Pure membership lookup in an LRU cache (the read that `lru.Get`
performs; the recency reordering the library also does is tracked by
`lruGet`, and never changes membership). -/
def lruLookup (c : LRUCache) (k : Nat) : Option Block :=
  (c.entries.find? (fun e => e.1 == k)).map (fun e => e.2)

/-- Embeds `lru.Get`: returns the entry and marks it most recently used. -/
def lruGet (c : LRUCache) (k : Nat) : Option Block × LRUCache :=
  match c.entries.find? (fun e => e.1 == k) with
  | none => (none, c)
  | some e => (some e.2, { c with entries := e :: c.entries.filter (fun e2 => e2.1 != k) })

/-- Embeds `lru.Remove`: drops the entry with the given key. -/
def lruRemove (c : LRUCache) (k : Nat) : LRUCache :=
  { c with entries := c.entries.filter (fun e => e.1 != k) }

/-- Embeds `lru.ContainsOrAdd`: no-op when the key is present; otherwise adds
the entry as most recent, evicting the least recently used entry when
the capacity is exceeded. -/
def lruContainsOrAdd (c : LRUCache) (k : Nat) (b : Block) : LRUCache :=
  if (c.entries.find? (fun e => e.1 == k)).isSome then c
  else
    let es := (k, b) :: c.entries
    { c with entries := if c.capacity < es.length then es.dropLast else es }

/-- Embeds `LoadBlockFromStorage`: fetch the stored bytes under the hash key
and reconstruct the block; any storage miss or reconstruction failure
is a `none` (the store holds decoded blocks, since serialization and
trie binding are external collaborators). -/
def LoadBlockFromStorage (hash : Nat) (s : Storage) : Option Block :=
  (s.blocks.find? (fun e => e.1 == hash)).map (fun e => e.2)

/-- Embeds `GetBlock` (result only): block cache first, then the store.  A block
loaded from the store is returned without being inserted into the
cache.  The recency touch `lru.Get` performs on a cache hit never
changes which blocks are found, so this pure reading is used inside
the chain-walk loops; `GetBlockS` tracks the cache state as well. -/
def GetBlock (bc : BlockChain) (hash : Nat) : Option Block :=
  match lruLookup bc.cachedBlocks hash with
  | none => LoadBlockFromStorage hash bc.storage
  | some b => some b

/-- Embeds `GetBlock` with the cache state threaded through: the `lru.Get`
call reorders recency on a hit; on a miss the store is consulted and
the loaded block is not inserted into the cache. -/
def GetBlockS (bc : BlockChain) (hash : Nat) : Option Block × BlockChain :=
  let r := lruGet bc.cachedBlocks hash
  match r.1 with
  | none =>
    match LoadBlockFromStorage hash bc.storage with
    | none => (none, { bc with cachedBlocks := r.2 })
    | some b => (some b, { bc with cachedBlocks := r.2 })
  | some b => (some b, { bc with cachedBlocks := r.2 })

/-- Embeds `storeBlockToStorage`: serialize and `Put` under the hash key;
a failure anywhere (encoding or put) is reported to the caller and
leaves the store unchanged. -/
def storeBlockToStorage (s : Storage) (b : Block) : Except Unit Storage :=
  if s.putBlockOk b.hash then .ok { s with blocks := (b.hash, b) :: s.blocks }
  else .error ()

/-- Embeds `storeTailToStorage`: `Put` of the tail hash under the `Tail` key.
The Go code discards the error returned by `Put`, so a failed write
silently leaves the store unchanged and nothing is reported. -/
def storeTailToStorage (s : Storage) (b : Block) : Storage :=
  if s.putTailOk then { s with tailHash := some b.hash } else s

/-- Abnormal exits of the chain-walk operations: `notLocated` is the
"cannot location the block in blockchain" error, `panic` aborts the
process (explicit `panic` calls and nil dereferences alike), and
`fuelOut` marks exhaustion of the fuel that makes the embedded loops
total. -/
inductive ChainErr where
  | notLocated
  | panic
  | fuelOut
deriving DecidableEq, Repr

/-- Loop of `FindCommonAncestorWithTail` lowering one side while its
height exceeds `h`: step to the parent; a missing parent is a nil
dereference on the next condition check, hence a panic. -/
def lowerWhileAbove (bc : BlockChain) : Nat → Block → Nat → Except ChainErr Block
  | 0, cur, h => if h < cur.height then .error .fuelOut else .ok cur
  | fuel + 1, cur, h =>
    if h < cur.height then
      match GetBlock bc cur.parentHash with
      | none => .error .panic
      | some p => lowerWhileAbove bc fuel p h
    else .ok cur

/-- Final loop of `FindCommonAncestorWithTail`: both sides at equal
height walk their parents in lockstep until the hashes match; a
missing parent on either side panics. -/
def walkBoth (bc : BlockChain) : Nat → Block → Block → Except ChainErr Block
  | 0, t, g => if t.hash = g.hash then .ok g else .error .fuelOut
  | fuel + 1, t, g =>
    if t.hash = g.hash then .ok g
    else
      match GetBlock bc t.parentHash, GetBlock bc g.parentHash with
      | some t', some g' => walkBoth bc fuel t' g'
      | _, _ => .error .panic

/-- Embeds `FindCommonAncestorWithTail`: resolve the argument by its own hash,
falling back to its parent hash; fail with `notLocated` if neither
resolves; then equalize heights against the current tail and walk both
sides together until the hashes match. -/
def FindCommonAncestorWithTail (bc : BlockChain) (block : Block) (fuel : Nat) :
    Except ChainErr Block :=
  let target? :=
    match GetBlock bc block.hash with
    | some t => some t
    | none => GetBlock bc block.parentHash
  match target? with
  | none => .error .notLocated
  | some target =>
    match lowerWhileAbove bc fuel bc.tailBlock target.height with
    | .error e => .error e
    | .ok tail1 =>
      match lowerWhileAbove bc fuel target tail1.height with
      | .error e => .error e
      | .ok target1 => walkBoth bc fuel tail1 target1

/-- Embeds `hashToInt64`: parse the last four hex characters of the tail-hash
hex string as an integer.  On the hex string of a hash those four
characters are the low 16 bits, and parsing them always succeeds. -/
def hashToInt64 (hash : Nat) : Except Unit Int :=
  .ok ((hash % 65536 : Nat) : Int)

/-- Loop of `getAncestorHash`: `number` iterations; on a non-genesis
block step to the parent (a missing parent is dereferenced by the next
iteration or by the final `Hash()` call, hence a panic); a genesis
block is left in place for the remaining iterations. -/
def ancestorWalk (bc : BlockChain) : Nat → Block → Except ChainErr Block
  | 0, blk => .ok blk
  | k + 1, blk =>
    if CheckGenesisBlock blk then ancestorWalk bc k blk
    else
      match GetBlock bc blk.parentHash with
      | none => .error .panic
      | some p => ancestorWalk bc k p

/-- Embeds `getAncestorHash`: the hash of the block `number` parent links
below the tail, stopping early at genesis. -/
def getAncestorHash (bc : BlockChain) (number : Nat) : Except ChainErr Nat :=
  (ancestorWalk bc number bc.tailBlock).map Block.hash

/-- Revert loop of `SetTailBlock`: walk from the old tail to the
common ancestor, counting each walked block and returning its
transactions to the pool; a missing parent panics. -/
def revertLoop (bc : BlockChain) (ancestorHash : Nat) :
    Nat → Block → Nat → List Nat → Except ChainErr (Nat × List Nat)
  | 0, reverted, times, acc =>
    if reverted.hash = ancestorHash then .ok (times, acc) else .error .fuelOut
  | fuel + 1, reverted, times, acc =>
    if reverted.hash = ancestorHash then .ok (times, acc)
    else
      match GetBlock bc reverted.parentHash with
      | none => .error .panic
      | some p => revertLoop bc ancestorHash fuel p (times + 1) (acc ++ reverted.txs)

/-- Result of `SetTailBlock`: the updated chain state, the one-way
telemetry signals it emitted (head height gauge, tail-hash fingerprint
gauge, revert-count gauge, revert meter) and the transactions returned
to the pool. -/
structure STOut where
  bc : BlockChain
  heightGauge : Option Nat
  tailHashGauge : Option Int
  revertGauge : Option Nat
  revertMeterMarked : Bool
  returnedTxs : List Nat

/-- First three statements of `SetTailBlock`: remove the promoted
block from the detached-tip cache, swing the in-memory tail, and
write the tail pointer to the store (whose error is discarded). -/
def swapTail (bc : BlockChain) (newTail : Block) : BlockChain :=
  let bc1 := { bc with
    detachedTailBlocks := lruRemove bc.detachedTailBlocks newTail.hash,
    tailBlock := newTail }
  { bc1 with storage := storeTailToStorage bc1.storage newTail }

/-- The error returned by `FindCommonAncestorWithTail` is discarded by
`SetTailBlock`; a `notLocated` outcome leaves `ancestor` nil and the
following `ancestor.Hash()` call is a nil dereference, i.e. a panic. -/
def setTailErr : ChainErr → ChainErr
  | .notLocated => .panic
  | e => e

/-- Embeds `SetTailBlock`: swap the tail (detached removal, in-memory swing,
durable write), find the common ancestor of the old tail with the new
chain, then either update the head gauges (same-chain case) or revert
the abandoned blocks, returning their transactions to the pool and
emitting the revert telemetry. -/
def SetTailBlock (bc : BlockChain) (newTail : Block) (fuel : Nat) :
    Except ChainErr STOut :=
  let oldTail := bc.tailBlock
  let bc2 := swapTail bc newTail
  match FindCommonAncestorWithTail bc2 oldTail fuel with
  | .error e => .error (setTailErr e)
  | .ok ancestor =>
    if ancestor.hash = oldTail.hash then
      match getAncestorHash bc2 6 with
      | .error e => .error e
      | .ok ah =>
        match hashToInt64 ah with
        | .ok v =>
          .ok { bc := bc2, heightGauge := some newTail.height,
                tailHashGauge := some v, revertGauge := none,
                revertMeterMarked := false, returnedTxs := [] }
        | .error _ =>
          .ok { bc := bc2, heightGauge := some newTail.height,
                tailHashGauge := none, revertGauge := none,
                revertMeterMarked := false, returnedTxs := [] }
    else
      match revertLoop bc2 ancestor.hash fuel oldTail 0 [] with
      | .error e => .error e
      | .ok (times, txs) =>
        .ok { bc := { bc2 with txPool := bc2.txPool ++ txs },
              heightGauge := none, tailHashGauge := none,
              revertGauge := if 0 < times then some times else none,
              revertMeterMarked := decide (0 < times),
              returnedTxs := txs }

/-- Loop body state effect of one `PutVerifiedNewBlocks` iteration over
`allBlocks`: cache insert, then persist; a persistence failure stops
the loop and reports the error. -/
def putBlocksLoop : BlockChain → List Block → BlockChain × Bool
  | bc, [] => (bc, false)
  | bc, v :: rest =>
    let bc1 := { bc with cachedBlocks := lruContainsOrAdd bc.cachedBlocks v.hash v }
    match storeBlockToStorage bc1.storage v with
    | .error _ => (bc1, true)
    | .ok s' => putBlocksLoop { bc1 with storage := s' } rest

/-- Embeds `PutVerifiedNewBlocks`: admit `allBlocks` into the block cache and
the store (aborting on the first persistence failure, which is
reported as the second component `true`), then insert `tailBlocks`
into the detached-tip cache. -/
def PutVerifiedNewBlocks (bc : BlockChain) (allBlocks tailBlocks : List Block) :
    BlockChain × Bool :=
  match putBlocksLoop bc allBlocks with
  | (bc1, true) => (bc1, true)
  | (bc1, false) =>
    let detached := tailBlocks.foldl (fun c v => lruContainsOrAdd c v.hash v)
      bc1.detachedTailBlocks
    ({ bc1 with detachedTailBlocks := detached }, false)

/-- Abnormal exits of `FetchDescendantInCanonicalChain`:
`notInCanonical` is the "cannot find the block in canonical chain"
error, `panicDivZero` the runtime panic of `(curIdx + 1) % n` when
`n = 0`, `fuelOut` the fuel artifact. -/
inductive FetchErr where
  | notInCanonical
  | panicDivZero
  | fuelOut
deriving DecidableEq, Repr

/-- Walk loop of `FetchDescendantInCanonicalChain`: from the tail down
to the target block, writing each visited block into the circular
buffer `queue` of size `n`; stops on reaching the target hash or a nil
block, errors on reaching genesis first, and panics (integer division
by zero) when `n = 0` and an iteration executes. -/
def fetchLoop (bc : BlockChain) (targetHash : Nat) (n : Nat) :
    Nat → Option Block → Int → List (Option Block) →
    Except FetchErr (Int × List (Option Block))
  | 0, _, _, _ => .error .fuelOut
  | _ + 1, none, curIdx, queue => .ok (curIdx, queue)
  | fuel + 1, some cur, curIdx, queue =>
    if cur.hash = targetHash then .ok (curIdx, queue)
    else if CheckGenesisBlock cur then .error .notInCanonical
    else if n = 0 then .error .panicDivZero
    else
      let i := (curIdx + 1) % (n : Int)
      fetchLoop bc targetHash n fuel (GetBlock bc cur.parentHash) i
        (queue.set i.toNat (some cur))

/-- Output loop of `FetchDescendantInCanonicalChain`: starting at the
last written slot and stepping backwards through the ring at most `n`
times (and only while the index is non-negative), collect the non-nil
entries. -/
def fetchCollect (n : Nat) (queue : List (Option Block)) :
    Nat → Int → List Block
  | 0, _ => []
  | rem + 1, curIdx =>
    if curIdx < 0 then []
    else
      let next := (curIdx + (n : Int) - 1) % (n : Int)
      match queue[curIdx.toNat]? with
      | some (some b) => b :: fetchCollect n queue rem next
      | _ => fetchCollect n queue rem next

/-- Embeds `FetchDescendantInCanonicalChain`: walk from the tail down to the
given block through a size-`n` circular buffer, then read the buffer
backwards from the last written slot. -/
def FetchDescendantInCanonicalChain (bc : BlockChain) (n : Nat) (block : Block)
    (fuel : Nat) : Except FetchErr (List Block) :=
  match fetchLoop bc block.hash n fuel (some bc.tailBlock) (-1)
      (List.replicate n none) with
  | .error e => .error e
  | .ok st => .ok (fetchCollect n st.2 n st.1)

/-- Embeds `loadGenesisFromStorage`: load the block under the well-known
genesis hash; if absent, synthesize the genesis block and persist it
(a persistence error is only logged, so the block is returned with the
store unchanged). -/
def loadGenesisFromStorage (bc : BlockChain) : Block × Storage :=
  match LoadBlockFromStorage GenesisHash bc.storage with
  | some g => (g, bc.storage)
  | none =>
    let g := NewGenesisBlock bc.chainID
    match storeBlockToStorage bc.storage g with
    | .ok s' => (g, s')
    | .error _ => (g, bc.storage)

/-- Embeds `loadTailFromStorage`: read the hash under the `Tail` key and load
that block; when the key is absent, fall back to the genesis block and
persist its hash under the `Tail` key before returning. -/
def loadTailFromStorage (bc : BlockChain) : Except Unit (Block × Storage) :=
  match bc.storage.tailHash with
  | none =>
    let gs := loadGenesisFromStorage bc
    .ok (gs.1, storeTailToStorage gs.2 gs.1)
  | some h =>
    match LoadBlockFromStorage h bc.storage with
    | none => .error ()
    | some b => .ok (b, bc.storage)

/-- A parent-linked descending chain: consecutive elements are related
by a successful `GetBlock` of the parent hash, with heights stepping
down by exactly one. -/
def chainB (get : Nat → Option Block) : List Block → Bool
  | [] => true
  | [_] => true
  | a :: b :: rest =>
    decide (get a.parentHash = some b) && (a.height == b.height + 1) &&
      chainB get (b :: rest)

/-- The invariant of the detached-tip set respecting the tail: the
current tail's hash has no entry in the detached-tip cache. -/
def TailNotDetachedB (bc : BlockChain) : Bool :=
  (lruLookup bc.detachedTailBlocks bc.tailBlock.hash).isNone

/-- Ancestor reachability along parent links of a block lookup. -/
inductive Reaches (get : Nat → Option Block) : Block → Block → Prop
  | refl (b : Block) : Reaches get b b
  | step (b p c : Block) : get b.parentHash = some p →
      Reaches get p c → Reaches get b c

/-- The walk from a block along parent links reaches a genesis block
(every non-genesis step has a resolvable parent). -/
inductive GenReach (get : Nat → Option Block) : Block → Prop
  | base (b : Block) : CheckGenesisBlock b = true → GenReach get b
  | step (b p : Block) : CheckGenesisBlock b = false →
      get b.parentHash = some p → GenReach get p → GenReach get b

/-- One insertion into the circular buffer of
`FetchDescendantInCanonicalChain`: advance the index modulo `n` and
write the block there. -/
def ringStep (n : Nat) (st : Int × List (Option Block)) (blk : Block) :
    Int × List (Option Block) :=
  ((st.1 + 1) % (n : Int), st.2.set ((st.1 + 1) % (n : Int)).toNat (some blk))

/-! ### Concrete test fixtures -/

/-- Block constructor with trivial roots and coinbase, for concrete
instances. -/
def mkB (h p ht : Nat) (txs : List Nat) : Block :=
  { hash := h, parentHash := p, height := ht, stateRoot := 0, txsRoot := 0,
    coinbase := 0, txs := txs }

/-- The genesis block G of the concrete scenario chain. -/
def cG : Block := mkB 1 0 0 []

/-- Block A, child of genesis, height 1. -/
def cA : Block := mkB 2 1 1 [21, 22]

/-- Block B, child of A, height 2, the canonical tail of `cBC`. -/
def cB : Block := mkB 3 2 2 [31]

/-- Block C, a competing child of genesis, height 1. -/
def cC : Block := mkB 4 1 1 [41]

/-- Block D, child of C, height 2, a detached tip of `cBC`. -/
def cD : Block := mkB 5 4 2 [51]

/-- Store holding the five scenario blocks, with B as durable tail and
all writes succeeding. -/
def cStore : Storage :=
  { blocks := [(1, cG), (2, cA), (3, cB), (4, cC), (5, cD)], tailHash := some 3,
    putBlockOk := fun _ => true, putTailOk := true }

/-- Chain state: G → A → B canonical with tail B; D is a detached tip. -/
def cBC : BlockChain :=
  { chainID := 100, genesisBlock := cG, tailBlock := cB, txPool := [],
    cachedBlocks := { capacity := 1024, entries := [] },
    detachedTailBlocks := { capacity := 64, entries := [(5, cD)] },
    storage := cStore }

/-- Chain state with tail A (about to advance forward to B). -/
def cBCa : BlockChain := { cBC with tailBlock := cA }

/-- Chain state whose tail is the genesis block. -/
def cBCgen : BlockChain := { cBC with tailBlock := cG }

/-- Chain state with tail A whose store rejects the tail-pointer write
(the durable tail still points at A). -/
def cBCfail : BlockChain :=
  { cBC with
    tailBlock := cA
    storage := { cStore with tailHash := some 2, putTailOk := false } }

/-- Empty store whose only failing write is the one for block B. -/
def cStoreP : Storage :=
  { blocks := [], tailHash := none, putBlockOk := fun k => k != 3,
    putTailOk := true }

/-- Chain state over `cStoreP`, used for the admission-failure claim. -/
def cBCp : BlockChain := { cBC with storage := cStoreP }

/-- Chain state whose store has the scenario blocks but no tail key. -/
def cBCnoTail : BlockChain :=
  { cBC with storage := { cStore with tailHash := none } }

/-- Chain state over a completely empty store. -/
def cBCempty : BlockChain :=
  { cBC with
    storage := { blocks := [], tailHash := none,
                 putBlockOk := fun _ => true, putTailOk := true } }

/-! ### Basic lemmas -/

theorem take_range' : ∀ (m n a : Nat),
    (List.range' a n).take m = List.range' a (min m n) := by
  intro m n
  induction n generalizing m with
  | zero => simp
  | succ n ih =>
    intro a
    cases m with
    | zero => simp
    | succ m =>
      rw [List.range'_succ, List.take_succ_cons, ih m (a + 1), Nat.succ_min_succ,
        List.range'_succ]

theorem mem_of_getElem?_block {l : List Block} {i : Nat} {x : Block}
    (h : l[i]? = some x) : x ∈ l := by
  obtain ⟨hlt, h2⟩ := List.getElem?_eq_some.mp h
  exact h2 ▸ List.getElem_mem hlt

/-- Lemma: `swapTail` changes only the detached cache, the tail field and the
tail-pointer entry of the store; block lookups are unaffected. -/
theorem GetBlock_swapTail (bc : BlockChain) (nt : Block) :
    GetBlock (swapTail bc nt) = GetBlock bc := by
  funext h
  simp only [GetBlock, swapTail, storeTailToStorage, lruLookup, LoadBlockFromStorage]
  cases hp : bc.storage.putTailOk <;> simp [hp]

theorem chainB_cons {get : Nat → Option Block} {a : Block} {l : List Block}
    (h : chainB get (a :: l) = true) : chainB get l = true := by
  cases l with
  | nil => rfl
  | cons b r =>
    simp only [chainB, Bool.and_eq_true, decide_eq_true_eq] at h
    exact h.2

theorem chainB_link {get : Nat → Option Block} {a b : Block} {l : List Block}
    (h : chainB get (a :: b :: l) = true) :
    get a.parentHash = some b ∧ a.height = b.height + 1 ∧
      chainB get (b :: l) = true := by
  simp only [chainB, Bool.and_eq_true, decide_eq_true_eq, beq_iff_eq] at h
  exact ⟨h.1.1, h.1.2, h.2⟩

theorem chainB_drop {get : Nat → Option Block} :
    ∀ (j : Nat) (l : List Block), chainB get l = true →
      chainB get (l.drop j) = true := by
  intro j
  induction j with
  | zero => intro l h; exact h
  | succ j ih =>
    intro l h
    cases l with
    | nil => rfl
    | cons a l' => exact ih l' (chainB_cons h)

theorem chainB_height {get : Nat → Option Block} :
    ∀ (L : List Block) (x z : Block) (i : Nat), chainB get L = true →
      L.head? = some x → L[i]? = some z → z.height + i = x.height := by
  intro L
  induction L with
  | nil => intro x z i _ hh _; simp at hh
  | cons a l ih =>
    intro x z i hc hh hg
    obtain rfl : a = x := by simpa using hh
    cases i with
    | zero =>
      have hz : a = z := by simpa using hg
      subst hz
      omega
    | succ i =>
      have hg' : l[i]? = some z := by simpa using hg
      cases l with
      | nil => simp at hg'
      | cons b r =>
        have hl := chainB_link hc
        have := ih b z i hl.2.2 (by simp) hg'
        omega

/-! ### The common-ancestor search -/

theorem lower_noop (bc : BlockChain) (fuel : Nat) (x : Block) (h : Nat)
    (hx : ¬ h < x.height) : lowerWhileAbove bc fuel x h = .ok x := by
  cases fuel <;> simp [lowerWhileAbove, hx]

theorem lower_run (bc : BlockChain) :
    ∀ (L : List Block) (x z : Block) (h fuel : Nat),
      chainB (GetBlock bc) L = true → L.head? = some x →
      L[x.height - h]? = some z → x.height - h ≤ fuel →
      lowerWhileAbove bc fuel x h = .ok z := by
  intro L
  induction L with
  | nil => intro x z h fuel _ hh _ _; simp at hh
  | cons a l ih =>
    intro x z h fuel hc hh hg hfuel
    obtain rfl : a = x := by simpa using hh
    by_cases hlt : h < a.height
    · cases fuel with
      | zero => omega
      | succ f =>
        cases l with
        | nil =>
          exfalso
          have hi : a.height - h = (a.height - h - 1) + 1 := by omega
          rw [hi] at hg
          simp at hg
        | cons b r =>
          have hl := chainB_link hc
          have hg' : (b :: r)[a.height - h - 1]? = some z := by
            have hi : a.height - h = (a.height - h - 1) + 1 := by omega
            rw [hi] at hg
            simpa using hg
          have hb : b.height - h = a.height - h - 1 := by
            have := hl.2.1
            omega
          simp only [lowerWhileAbove, if_pos hlt, hl.1]
          exact ih b z h f hl.2.2 (by simp) (by rw [hb]; exact hg') (by omega)
    · have h0 : a.height - h = 0 := by omega
      rw [h0] at hg
      have hz : a = z := by simpa using hg
      subst hz
      exact lower_noop bc fuel a h hlt

theorem walkBoth_meet (bc : BlockChain) :
    ∀ (X Y : List Block) (c x y : Block) (fuel : Nat),
      chainB (GetBlock bc) X = true → chainB (GetBlock bc) Y = true →
      X.length = Y.length → X.head? = some x → Y.head? = some y →
      X.getLast? = some c → Y.getLast? = some c →
      (∀ i x' y', i + 1 < X.length → X[i]? = some x' → Y[i]? = some y' →
        x'.hash ≠ y'.hash) →
      X.length ≤ fuel → walkBoth bc fuel x y = .ok c := by
  intro X
  induction X with
  | nil => intro Y c x y fuel _ _ _ hhX _ _ _ _ _; simp at hhX
  | cons a X' ih =>
    intro Y c x y fuel hcX hcY hlen hhX hhY hlX hlY hdist hfuel
    obtain rfl : a = x := by simpa using hhX
    cases Y with
    | nil => simp at hlen
    | cons b Y' =>
      obtain rfl : b = y := by simpa using hhY
      cases X' with
      | nil =>
        cases Y' with
        | nil =>
          have hac : a = c := by simpa using hlX
          have hbc : b = c := by simpa using hlY
          subst hac
          subst hbc
          cases fuel <;> simp [walkBoth]
        | cons _ _ => simp at hlen
      | cons a2 X'' =>
        cases Y' with
        | nil => simp at hlen
        | cons b2 Y'' =>
          have hne : a.hash ≠ b.hash :=
            hdist 0 a b (by simp) (by simp) (by simp)
          have hlkX := chainB_link hcX
          have hlkY := chainB_link hcY
          cases fuel with
          | zero => simp at hfuel
          | succ f =>
            simp only [walkBoth, if_neg hne, hlkX.1, hlkY.1]
            exact ih (b2 :: Y'') c a2 b2 f hlkX.2.2 hlkY.2.2
              (by simpa using hlen) (by simp) (by simp)
              (by simpa [List.getLast?_cons_cons] using hlX)
              (by simpa [List.getLast?_cons_cons] using hlY)
              (fun i x' y' hi hx' hy' =>
                hdist (i + 1) x' y' (by simpa using Nat.succ_lt_succ hi)
                  (by simpa using hx') (by simpa using hy'))
              (by simp at hfuel ⊢; omega)

/-- Completeness of the common-ancestor search: on two parent-linked
chains descending from the current tail and from the resolved target
to a common block `c`, with no other hash shared between the two
chains, the search returns exactly `c`. -/
theorem FCAW_complete (bc : BlockChain) (blk t0 c : Block) (X' Y' : List Block)
    (fuel : Nat)
    (hres : GetBlock bc blk.hash = some t0)
    (hX : chainB (GetBlock bc) (X' ++ [c]) = true)
    (hXh : (X' ++ [c]).head? = some bc.tailBlock)
    (hY : chainB (GetBlock bc) (Y' ++ [c]) = true)
    (hYh : (Y' ++ [c]).head? = some t0)
    (hcom : ∀ x ∈ X' ++ [c], ∀ y ∈ Y' ++ [c], x.hash = y.hash → x = c ∧ y = c)
    (hfuel : X'.length + Y'.length + 2 ≤ fuel) :
    FindCommonAncestorWithTail bc blk fuel = .ok c := by
  have hcX : (X' ++ [c])[X'.length]? = some c := List.getElem?_concat_length X' c
  have hcY : (Y' ++ [c])[Y'.length]? = some c := List.getElem?_concat_length Y' c
  have hxh : c.height + X'.length = bc.tailBlock.height :=
    chainB_height (X' ++ [c]) bc.tailBlock c X'.length hX hXh hcX
  have hyh : c.height + Y'.length = t0.height :=
    chainB_height (Y' ++ [c]) t0 c Y'.length hY hYh hcY
  by_cases hYX : Y'.length ≤ X'.length
  · -- the tail side is the (weakly) higher one and is lowered first
    set i := X'.length - Y'.length with hi
    have hilt : i < (X' ++ [c]).length := by simp; omega
    have hz : (X' ++ [c])[i]? = some (X' ++ [c])[i] := List.getElem?_eq_getElem hilt
    set z := (X' ++ [c])[i] with hzdef
    have hzh : z.height + i = bc.tailBlock.height :=
      chainB_height (X' ++ [c]) bc.tailBlock z i hX hXh hz
    have h1 : lowerWhileAbove bc fuel bc.tailBlock t0.height = .ok z := by
      apply lower_run bc (X' ++ [c]) bc.tailBlock z t0.height fuel hX hXh
      · have : bc.tailBlock.height - t0.height = i := by omega
        rw [this]; exact hz
      · omega
    have h2 : lowerWhileAbove bc fuel t0 z.height = .ok t0 :=
      lower_noop bc fuel t0 z.height (by omega)
    have h3 : walkBoth bc fuel z t0 = .ok c := by
      apply walkBoth_meet bc ((X' ++ [c]).drop i) (Y' ++ [c]) c z t0 fuel
        (chainB_drop i _ hX) hY
      · simp; omega
      · rw [List.head?_drop]; exact hz
      · exact hYh
      · rw [List.drop_append_of_le_length (by omega)]
        exact List.getLast?_concat _
      · exact List.getLast?_concat _
      · intro j u v hj hu hv huv
        rw [List.getElem?_drop] at hu
        have hmu : u ∈ X' ++ [c] := mem_of_getElem?_block hu
        have hmv : v ∈ Y' ++ [c] := mem_of_getElem?_block hv
        have hhu : u.height + (i + j) = bc.tailBlock.height :=
          chainB_height (X' ++ [c]) bc.tailBlock u (i + j) hX hXh hu
        have hcu : u = c := (hcom u hmu v hmv huv).1
        rw [hcu] at hhu
        simp [List.length_drop] at hj
        omega
      · simp; omega
    simp only [FindCommonAncestorWithTail, hres, h1, h2, h3]
  · -- the target side is strictly higher; the tail side stays put
    have h1 : lowerWhileAbove bc fuel bc.tailBlock t0.height = .ok bc.tailBlock :=
      lower_noop bc fuel bc.tailBlock t0.height (by omega)
    set j := Y'.length - X'.length with hj
    have hjlt : j < (Y' ++ [c]).length := by simp; omega
    have hz : (Y' ++ [c])[j]? = some (Y' ++ [c])[j] := List.getElem?_eq_getElem hjlt
    set z := (Y' ++ [c])[j] with hzdef
    have hzh : z.height + j = t0.height :=
      chainB_height (Y' ++ [c]) t0 z j hY hYh hz
    have h2 : lowerWhileAbove bc fuel t0 bc.tailBlock.height = .ok z := by
      apply lower_run bc (Y' ++ [c]) t0 z bc.tailBlock.height fuel hY hYh
      · have : t0.height - bc.tailBlock.height = j := by omega
        rw [this]; exact hz
      · omega
    have h3 : walkBoth bc fuel bc.tailBlock z = .ok c := by
      apply walkBoth_meet bc (X' ++ [c]) ((Y' ++ [c]).drop j) c bc.tailBlock z fuel
        hX (chainB_drop j _ hY)
      · simp; omega
      · exact hXh
      · rw [List.head?_drop]; exact hz
      · exact List.getLast?_concat _
      · rw [List.drop_append_of_le_length (by omega)]
        exact List.getLast?_concat _
      · intro jj u v hjj hu hv huv
        rw [List.getElem?_drop] at hv
        have hmu : u ∈ X' ++ [c] := mem_of_getElem?_block hu
        have hmv : v ∈ Y' ++ [c] := mem_of_getElem?_block hv
        have hhu : u.height + jj = bc.tailBlock.height :=
          chainB_height (X' ++ [c]) bc.tailBlock u jj hX hXh hu
        have hcu : u = c := (hcom u hmu v hmv huv).1
        rw [hcu] at hhu
        simp at hjj
        omega
      · simp; omega
    simp only [FindCommonAncestorWithTail, hres, h1, h2, h3]

theorem Reaches_trans {get : Nat → Option Block} {a b c : Block}
    (h1 : Reaches get a b) (h2 : Reaches get b c) : Reaches get a c := by
  revert h2
  induction h1 with
  | refl _ => exact fun h => h
  | step d p e hget _ ih => exact fun h => Reaches.step d p c hget (ih h)

theorem lower_sound (bc : BlockChain) :
    ∀ (fuel : Nat) (x z : Block) (h : Nat),
      lowerWhileAbove bc fuel x h = .ok z → Reaches (GetBlock bc) x z := by
  intro fuel
  induction fuel with
  | zero =>
    intro x z h hok
    unfold lowerWhileAbove at hok
    split at hok
    · simp at hok
    · obtain rfl : x = z := by simpa using hok
      exact Reaches.refl x
  | succ f ih =>
    intro x z h hok
    unfold lowerWhileAbove at hok
    split at hok
    · cases hp : GetBlock bc x.parentHash with
      | none => rw [hp] at hok; simp at hok
      | some p => rw [hp] at hok; exact Reaches.step x p z hp (ih p z h hok)
    · obtain rfl : x = z := by simpa using hok
      exact Reaches.refl x

theorem walk_sound (bc : BlockChain) :
    ∀ (fuel : Nat) (t g a : Block), walkBoth bc fuel t g = .ok a →
      Reaches (GetBlock bc) g a ∧
        ∃ t', Reaches (GetBlock bc) t t' ∧ t'.hash = a.hash := by
  intro fuel
  induction fuel with
  | zero =>
    intro t g a hok
    unfold walkBoth at hok
    split at hok
    · next hh =>
      obtain rfl : g = a := by simpa using hok
      exact ⟨Reaches.refl g, t, Reaches.refl t, hh⟩
    · simp at hok
  | succ f ih =>
    intro t g a hok
    unfold walkBoth at hok
    split at hok
    · next hh =>
      obtain rfl : g = a := by simpa using hok
      exact ⟨Reaches.refl g, t, Reaches.refl t, hh⟩
    · cases hpt : GetBlock bc t.parentHash with
      | none => rw [hpt] at hok; simp at hok
      | some t2 =>
        cases hpg : GetBlock bc g.parentHash with
        | none => rw [hpt, hpg] at hok; simp at hok
        | some g2 =>
          rw [hpt, hpg] at hok
          obtain ⟨hg, t', ht, hh⟩ := ih t2 g2 a hok
          exact ⟨Reaches.step g g2 a hpg hg, t',
            Reaches.step t t2 t' hpt ht, hh⟩

/-- Soundness of the common-ancestor search: whatever it returns was
obtained by walking parent links from the resolved target and (up to
the hash comparison that ends the joint walk) from the current tail;
a missing parent link can only abort, never produce an unrelated
block. -/
theorem FCAW_sound (bc : BlockChain) (blk : Block) (fuel : Nat) (a : Block)
    (hok : FindCommonAncestorWithTail bc blk fuel = .ok a) :
    ∃ t0, (GetBlock bc blk.hash = some t0 ∨
        (GetBlock bc blk.hash = none ∧ GetBlock bc blk.parentHash = some t0)) ∧
      Reaches (GetBlock bc) t0 a ∧
      ∃ t', Reaches (GetBlock bc) bc.tailBlock t' ∧ t'.hash = a.hash := by
  unfold FindCommonAncestorWithTail at hok
  have main : ∀ t0, (match GetBlock bc blk.hash with
      | some t => some t
      | none => GetBlock bc blk.parentHash) = some t0 →
      (match lowerWhileAbove bc fuel bc.tailBlock t0.height with
        | .error e => .error e
        | .ok tail1 =>
          match lowerWhileAbove bc fuel t0 tail1.height with
          | .error e => .error e
          | .ok target1 => walkBoth bc fuel tail1 target1) = Except.ok a →
      Reaches (GetBlock bc) t0 a ∧
        ∃ t', Reaches (GetBlock bc) bc.tailBlock t' ∧ t'.hash = a.hash := by
    intro t0 _ hrun
    cases h1 : lowerWhileAbove bc fuel bc.tailBlock t0.height with
    | error e => rw [h1] at hrun; simp at hrun
    | ok tail1 =>
      simp only [h1] at hrun
      cases h2 : lowerWhileAbove bc fuel t0 tail1.height with
      | error e => rw [h2] at hrun; simp at hrun
      | ok target1 =>
        simp only [h2] at hrun
        obtain ⟨hg, t', ht, hh⟩ := walk_sound bc fuel tail1 target1 a hrun
        exact ⟨Reaches_trans (lower_sound bc fuel t0 target1 tail1.height h2) hg,
          t', Reaches_trans (lower_sound bc fuel bc.tailBlock tail1 t0.height h1) ht,
          hh⟩
  cases hres : GetBlock bc blk.hash with
  | some t0 =>
    simp only [hres] at hok
    exact ⟨t0, Or.inl rfl, main t0 (by simp [hres]) hok⟩
  | none =>
    simp only [hres] at hok
    cases hres2 : GetBlock bc blk.parentHash with
    | none => rw [hres2] at hok; simp at hok
    | some t0 =>
      simp only [hres2] at hok
      exact ⟨t0, Or.inr ⟨rfl, rfl⟩, main t0 (by simp [hres, hres2]) hok⟩

/-- The revert walk of `SetTailBlock` along the abandoned chain: it
counts exactly the walked blocks and returns their transactions, in
walk order. -/
theorem revert_run (bc : BlockChain) :
    ∀ (T : List Block) (g x : Block) (times : Nat) (acc : List Nat) (fuel : Nat),
      chainB (GetBlock bc) (T ++ [g]) = true → (T ++ [g]).head? = some x →
      (∀ p ∈ T, p.hash ≠ g.hash) → T.length ≤ fuel →
      revertLoop bc g.hash fuel x times acc =
        .ok (times + T.length, acc ++ T.flatMap Block.txs) := by
  intro T
  induction T with
  | nil =>
    intro g x times acc fuel _ hh _ _
    obtain rfl : g = x := by simpa using hh
    cases fuel <;> simp [revertLoop]
  | cons t T' ih =>
    intro g x times acc fuel hc hh hne hfuel
    obtain rfl : t = x := by simpa using hh
    have hnt : ¬ t.hash = g.hash := hne t (by simp)
    cases fuel with
    | zero => simp at hfuel
    | succ f =>
      cases T' with
      | nil =>
        have hl := chainB_link (l := []) hc
        simp only [revertLoop, if_neg hnt, hl.1]
        rw [ih g g (times + 1) (acc ++ t.txs) f (by simp [chainB]) (by simp)
          (by simp) (by simp)]
        simp
      | cons t2 T'' =>
        have hl := chainB_link hc
        simp only [revertLoop, if_neg hnt, hl.1]
        rw [ih g t2 (times + 1) (acc ++ t.txs) f hl.2.2 (by simp)
          (fun p hp => hne p (by simp [hp])) (by simp at hfuel ⊢; omega)]
        simp [List.append_assoc]
        omega

/-- The `getAncestorHash` walk never panics on a chain whose parent
links reach genesis. -/
theorem ancestorWalk_ok (bc : BlockChain) :
    ∀ (k : Nat) (b : Block), GenReach (GetBlock bc) b →
      ∃ r, ancestorWalk bc k b = .ok r ∧ GenReach (GetBlock bc) r := by
  intro k
  induction k with
  | zero => intro b hb; exact ⟨b, rfl, hb⟩
  | succ k ih =>
    intro b hb
    cases hb with
    | base _ hgen =>
      unfold ancestorWalk
      rw [if_pos hgen]
      exact ih b (GenReach.base b hgen)
    | step _ p hng hp hrp =>
      unfold ancestorWalk
      rw [if_neg (by simp [hng]), hp]
      exact ih p hrp

/-! ### Cache and store helper lemmas -/

theorem lruLookup_eq_none_iff (c : LRUCache) (k : Nat) :
    lruLookup c k = none ↔ ∀ e ∈ c.entries, e.1 ≠ k := by
  simp [lruLookup, Option.map_eq_none', List.find?_eq_none]

theorem lruRemove_lookup_self (c : LRUCache) (k : Nat) :
    lruLookup (lruRemove c k) k = none := by
  rw [lruLookup_eq_none_iff]
  intro e he
  have := (List.mem_filter.mp he).2
  simpa using this

theorem lruContainsOrAdd_preserve_none (c : LRUCache) (k k' : Nat) (b : Block)
    (h : lruLookup c k = none) (hne : k' ≠ k) :
    lruLookup (lruContainsOrAdd c k' b) k = none := by
  rw [lruLookup_eq_none_iff] at h ⊢
  unfold lruContainsOrAdd
  split
  · exact h
  · intro e he
    simp only at he
    split at he
    · have hmem : e ∈ (k', b) :: c.entries := List.dropLast_subset _ he
      rcases List.mem_cons.mp hmem with rfl | hm
      · exact hne
      · exact h e hm
    · rcases List.mem_cons.mp he with rfl | hm
      · exact hne
      · exact h e hm

theorem foldl_containsOrAdd_preserve_none (k : Nat) :
    ∀ (tB : List Block) (c : LRUCache), lruLookup c k = none →
      (∀ b ∈ tB, b.hash ≠ k) →
      lruLookup (tB.foldl (fun c v => lruContainsOrAdd c v.hash v) c) k = none := by
  intro tB
  induction tB with
  | nil => intro c h _; exact h
  | cons v rest ih =>
    intro c h hne
    exact ih (lruContainsOrAdd c v.hash v)
      (lruContainsOrAdd_preserve_none c k v.hash v h (hne v (by simp)))
      (fun b hb => hne b (by simp [hb]))

theorem storeBlockToStorage_ok {s s' : Storage} {b : Block}
    (h : storeBlockToStorage s b = .ok s') :
    s' = { s with blocks := (b.hash, b) :: s.blocks } := by
  unfold storeBlockToStorage at h
  split at h
  · exact (Except.ok.injEq _ _).mp h.symm ▸ rfl
  · simp at h

/-- Every `.ok` outcome of `SetTailBlock` carries the swapped state:
tail swung to the new tail, the new tail's entry removed from the
detached cache, the block cache untouched, the store as written by
`storeTailToStorage`, and the pool extended by exactly the returned
transactions. -/
theorem SetTailBlock_ok_state (bc : BlockChain) (nt : Block) (fuel : Nat)
    (out : STOut) (hok : SetTailBlock bc nt fuel = .ok out) :
    out.bc.tailBlock = nt ∧
    out.bc.storage = storeTailToStorage bc.storage nt ∧
    out.bc.detachedTailBlocks = lruRemove bc.detachedTailBlocks nt.hash ∧
    out.bc.cachedBlocks = bc.cachedBlocks ∧
    out.bc.txPool = bc.txPool ++ out.returnedTxs := by
  simp only [SetTailBlock] at hok
  cases hfc : FindCommonAncestorWithTail (swapTail bc nt) bc.tailBlock fuel with
  | error e => rw [hfc] at hok; simp at hok
  | ok ancestor =>
    simp only [hfc] at hok
    split at hok
    · cases hga : getAncestorHash (swapTail bc nt) 6 with
      | error e => rw [hga] at hok; simp at hok
      | ok ah =>
        simp only [hga, hashToInt64] at hok
        cases hok
        exact ⟨rfl, rfl, rfl, rfl, by simp [swapTail]⟩
    · cases hrl : revertLoop (swapTail bc nt) ancestor.hash fuel bc.tailBlock 0 [] with
      | error e => rw [hrl] at hok; simp at hok
      | ok p =>
        obtain ⟨times, txs⟩ := p
        simp only [hrl] at hok
        cases hok
        exact ⟨rfl, rfl, rfl, rfl, rfl⟩

/-- The admission loop over `allBlocks` never touches the detached-tip
cache, the tail, or the pool. -/
theorem putBlocksLoop_frame :
    ∀ (l : List Block) (bc : BlockChain),
      (putBlocksLoop bc l).1.detachedTailBlocks = bc.detachedTailBlocks ∧
      (putBlocksLoop bc l).1.tailBlock = bc.tailBlock ∧
      (putBlocksLoop bc l).1.txPool = bc.txPool := by
  intro l
  induction l with
  | nil => intro bc; exact ⟨rfl, rfl, rfl⟩
  | cons v rest ih =>
    intro bc
    simp only [putBlocksLoop]
    cases hs : storeBlockToStorage bc.storage v with
    | error e => exact ⟨rfl, rfl, rfl⟩
    | ok s' => exact ih _

/-- The admission loop with an all-succeeding prefix: no error, and the
store gains exactly the prefix entries (most recent first). -/
theorem putBlocksLoop_all_ok :
    ∀ (l : List Block) (bc : BlockChain),
      (∀ b ∈ l, bc.storage.putBlockOk b.hash = true) →
      (putBlocksLoop bc l).2 = false ∧
      (putBlocksLoop bc l).1.storage.blocks =
        (l.map (fun b => (b.hash, b))).reverse ++ bc.storage.blocks ∧
      (putBlocksLoop bc l).1.storage.tailHash = bc.storage.tailHash := by
  intro l
  induction l with
  | nil => intro bc _; exact ⟨rfl, by simp [putBlocksLoop], rfl⟩
  | cons v rest ih =>
    intro bc hok
    have hv : bc.storage.putBlockOk v.hash = true := hok v (by simp)
    simp only [putBlocksLoop, storeBlockToStorage, hv, if_true]
    have := ih { bc with
      cachedBlocks := lruContainsOrAdd bc.cachedBlocks v.hash v,
      storage := { bc.storage with blocks := (v.hash, v) :: bc.storage.blocks } }
      (fun b hb => hok b (by simp [hb]))
    exact ⟨this.1, this.2.1.trans (by simp), this.2.2⟩

/-- The admission loop aborts at the first block whose persistence
fails, reporting the error with exactly the prefix persisted. -/
theorem putBlocksLoop_fail :
    ∀ (pre : List Block) (f : Block) (rest : List Block) (bc : BlockChain),
      (∀ b ∈ pre, bc.storage.putBlockOk b.hash = true) →
      bc.storage.putBlockOk f.hash = false →
      (putBlocksLoop bc (pre ++ f :: rest)).2 = true ∧
      (putBlocksLoop bc (pre ++ f :: rest)).1.storage.blocks =
        (pre.map (fun b => (b.hash, b))).reverse ++ bc.storage.blocks ∧
      (putBlocksLoop bc (pre ++ f :: rest)).1.storage.tailHash =
        bc.storage.tailHash := by
  intro pre
  induction pre with
  | nil =>
    intro f rest bc _ hf
    simp only [List.nil_append, putBlocksLoop, storeBlockToStorage, hf]
    exact ⟨rfl, by simp, rfl⟩
  | cons p pre' ih =>
    intro f rest bc hpre hf
    have hp : bc.storage.putBlockOk p.hash = true := hpre p (by simp)
    simp only [List.cons_append, putBlocksLoop, storeBlockToStorage, hp, if_true]
    have := ih f rest { bc with
      cachedBlocks := lruContainsOrAdd bc.cachedBlocks p.hash p,
      storage := { bc.storage with blocks := (p.hash, p) :: bc.storage.blocks } }
      (fun b hb => hpre b (by simp [hb])) hf
    exact ⟨this.1, this.2.1.trans (by simp), this.2.2⟩

/-! ### Claim C1: tail-pointer write failure -/

/-- Claim C1 counterexample: at a concrete state whose store rejects
the tail-pointer write, `SetTailBlock` completes without reporting any
failure, yet leaves the in-memory tail advanced past the durable tail
pointer — refuting that the two are updated together or that a failure
is reported before mutating the in-memory tail. -/
theorem C1_counterexample :
    ¬ (∀ out, SetTailBlock cBCfail cB 10 = .ok out →
        out.bc.storage.tailHash = some out.bc.tailBlock.hash) := by
  intro h
  have h2 : Except.map (fun o => (o.bc.storage.tailHash, o.bc.tailBlock.hash))
      (SetTailBlock cBCfail cB 10) = .ok (some 2, 3) := by decide
  cases hout : SetTailBlock cBCfail cB 10 with
  | error e => rw [hout] at h2; exact absurd h2 (by simp [Except.map])
  | ok out =>
    rw [hout] at h2
    simp only [Except.map] at h2
    have h3 := (Except.ok.injEq _ _).mp h2
    have h1 := h out hout
    rw [(Prod.mk.injEq _ _ _ _).mp h3 |>.1, (Prod.mk.injEq _ _ _ _).mp h3 |>.2]
      at h1
    simp at h1

/-- Claim C1 (amended): `storeTailToStorage` discards the `Put` error,
so when the durable tail-pointer write fails, `SetTailBlock` still
swings the in-memory tail to the new tail, reports no failure, and
leaves the durable tail pointer (and the block entries) unchanged —
the in-memory tail is silently advanced past the durable one. -/
theorem C1_amended (bc : BlockChain) (newTail : Block) (fuel : Nat) (out : STOut)
    (hfail : bc.storage.putTailOk = false)
    (hok : SetTailBlock bc newTail fuel = .ok out) :
    out.bc.tailBlock = newTail ∧
    out.bc.storage.tailHash = bc.storage.tailHash ∧
    out.bc.storage.blocks = bc.storage.blocks := by
  obtain ⟨ht, hs, _, _, _⟩ := SetTailBlock_ok_state bc newTail fuel out hok
  refine ⟨ht, ?_, ?_⟩ <;> rw [hs] <;> simp [storeTailToStorage, hfail]

/-- Claim C1 witness: the amended theorem at the concrete failing
store. -/
theorem C1_witness :
    ∃ out, SetTailBlock cBCfail cB 10 = .ok out ∧
      out.bc.tailBlock = cB ∧ out.bc.storage.tailHash = some 2 := by
  have h2 : Except.map (fun o => o.bc.tailBlock.hash)
      (SetTailBlock cBCfail cB 10) = .ok 3 := by decide
  cases hout : SetTailBlock cBCfail cB 10 with
  | error e => rw [hout] at h2; exact absurd h2 (by simp [Except.map])
  | ok out =>
    have h := C1_amended cBCfail cB 10 out (by decide) hout
    exact ⟨out, rfl, h.1, h.2.1.trans rfl⟩

/-! ### Claim C5: admission-failure and detached-tip frame -/

/-- Claim C5: when persisting one block of `allBlocks` fails (every
earlier block's write succeeding), `PutVerifiedNewBlocks` aborts at
that block and reports the failure, with exactly the prefix already
durably admitted; and the detached-tip insertions never touch the
store: the resulting store does not depend on `tailBlocks` at all. -/
theorem C5_admission_failure (bc : BlockChain) (pre : List Block) (f : Block)
    (rest tailB : List Block)
    (hpre : ∀ b ∈ pre, bc.storage.putBlockOk b.hash = true)
    (hf : bc.storage.putBlockOk f.hash = false) :
    (PutVerifiedNewBlocks bc (pre ++ f :: rest) tailB).2 = true ∧
    (PutVerifiedNewBlocks bc (pre ++ f :: rest) tailB).1.storage.blocks =
      (pre.map (fun b => (b.hash, b))).reverse ++ bc.storage.blocks ∧
    (PutVerifiedNewBlocks bc (pre ++ f :: rest) tailB).1.storage.tailHash =
      bc.storage.tailHash ∧
    (∀ (aB tB tB' : List Block),
      (PutVerifiedNewBlocks bc aB tB).1.storage =
        (PutVerifiedNewBlocks bc aB tB').1.storage) := by
  have hfail := putBlocksLoop_fail pre f rest bc hpre hf
  have hindep : ∀ (aB tB tB' : List Block),
      (PutVerifiedNewBlocks bc aB tB).1.storage =
        (PutVerifiedNewBlocks bc aB tB').1.storage := by
    intro aB tB tB'
    unfold PutVerifiedNewBlocks
    obtain ⟨bc1, err⟩ := putBlocksLoop bc aB
    cases err <;> rfl
  refine ⟨?_, ?_, ?_, hindep⟩
  all_goals
    unfold PutVerifiedNewBlocks
    obtain ⟨h1, h2, h3⟩ := hfail
    cases hpl : putBlocksLoop bc (pre ++ f :: rest) with
    | mk bc1 err =>
      rw [hpl] at h1 h2 h3
      cases err
      · simp at h1
      · first
        | rfl
        | exact h2
        | exact h3

/-- Claim C5 witness: the failure theorem at a concrete batch whose
second block's write fails. -/
theorem C5_witness :
    (PutVerifiedNewBlocks cBCp [cA, cB, cG] [cD]).2 = true ∧
    (PutVerifiedNewBlocks cBCp [cA, cB, cG] [cD]).1.storage.blocks = [(2, cA)] ∧
    (PutVerifiedNewBlocks cBCp [cA, cB, cG] [cD]).1.storage.tailHash = none := by
  have h := C5_admission_failure cBCp [cA] cB [cG] [cD] (by decide) (by decide)
  exact ⟨h.1, h.2.1.trans (by decide), h.2.2.1.trans rfl⟩

/-! ### Claim C7: retrieval is read-only -/

/-- Claim C7: on a block-cache miss, `GetBlock` leaves the entire
chain state unchanged — the detached-tip cache is neither read nor
modified, and a block freshly loaded from the store is not inserted
into the block cache; when the store has no loadable entry either, the
result is "not found". -/
theorem C7_getblock_frame (bc : BlockChain) (h : Nat)
    (hmiss : lruLookup bc.cachedBlocks h = none) :
    (LoadBlockFromStorage h bc.storage = none → GetBlockS bc h = (none, bc)) ∧
    (∀ blk, LoadBlockFromStorage h bc.storage = some blk →
      GetBlockS bc h = (some blk, bc)) := by
  have hfind : bc.cachedBlocks.entries.find? (fun e => e.1 == h) = none := by
    simpa [lruLookup, Option.map_eq_none'] using hmiss
  have hg : lruGet bc.cachedBlocks h = (none, bc.cachedBlocks) := by
    unfold lruGet
    rw [hfind]
  constructor
  · intro hl
    simp [GetBlockS, hg, hl]
  · intro blk hl
    simp [GetBlockS, hg, hl]

/-- Claim C7 witness: an unknown hash returns "not found" with the
state untouched, and a store-only block is returned without being
cached. -/
theorem C7_witness :
    GetBlockS cBC 99 = (none, cBC) ∧ GetBlockS cBC 3 = (some cB, cBC) :=
  ⟨(C7_getblock_frame cBC 99 (by decide)).1 (by decide),
   (C7_getblock_frame cBC 3 (by decide)).2 cB (by decide)⟩

/-! ### Claim C8: the detached-tip/tail invariant -/

/-- Claim C8 counterexample: batch admission inserts any given
detached tip unconditionally — passing the current tail as a detached
tip re-establishes it in the detached-tip set, violating the claimed
invariant that no operation makes the current tail a detached tip. -/
theorem C8_counterexample :
    TailNotDetachedB cBC = true ∧
    TailNotDetachedB (PutVerifiedNewBlocks cBC [] [cB]).1 = false := by
  decide

/-- Claim C8 (amended): `SetTailBlock` always removes the promoted
block from the detached-tip set, so after any successful tail switch
the current tail is not a detached tip; and batch admission preserves
the invariant exactly when none of the submitted detached tips carries
the current tail's hash — it re-establishes the tail as a detached tip
whenever the tail itself is passed in `tailBlocks`. -/
theorem C8_amended :
    (∀ (bc : BlockChain) (nt : Block) (fuel : Nat) (out : STOut),
      SetTailBlock bc nt fuel = .ok out → TailNotDetachedB out.bc = true) ∧
    (∀ (bc : BlockChain) (aB tB : List Block),
      TailNotDetachedB bc = true →
      (∀ b ∈ tB, b.hash ≠ bc.tailBlock.hash) →
      TailNotDetachedB (PutVerifiedNewBlocks bc aB tB).1 = true) := by
  constructor
  · intro bc nt fuel out hok
    obtain ⟨ht, _, hd, _, _⟩ := SetTailBlock_ok_state bc nt fuel out hok
    unfold TailNotDetachedB
    rw [ht, hd, lruRemove_lookup_self]
    rfl
  · intro bc aB tB hinv hne
    obtain ⟨hd, htl, _⟩ := putBlocksLoop_frame aB bc
    unfold TailNotDetachedB at hinv ⊢
    unfold PutVerifiedNewBlocks
    cases hpl : putBlocksLoop bc aB with
    | mk bc1 err =>
      rw [hpl] at hd htl
      cases err
      · simp only
        rw [htl, foldl_containsOrAdd_preserve_none bc.tailBlock.hash tB
          bc1.detachedTailBlocks (by rw [hd]; exact Option.isNone_iff_eq_none.mp hinv)
          hne]
        rfl
      · simp only
        rw [htl, hd]
        exact hinv

/-- Claim C8 witness: the amended preservation statement at concrete
inputs — a tail switch removes the promoted tip, and admission with a
non-tail detached tip keeps the invariant. -/
theorem C8_witness :
    (∀ out, SetTailBlock cBCa cB 10 = .ok out → TailNotDetachedB out.bc = true) ∧
    TailNotDetachedB (PutVerifiedNewBlocks cBC [] [cD]).1 = true :=
  ⟨fun out hok => C8_amended.1 cBCa cB 10 out hok,
   C8_amended.2 cBC [] [cD] (by decide) (by decide)⟩

/-! ### Claim C9: tail defaulting to genesis on first load -/

/-- Claim C9: when the store has no entry under the tail key, loading
the tail yields the genesis block — the stored one when present,
otherwise the freshly synthesized and persisted one — and in both
cases the genesis hash is persisted under the tail key before the
load returns. -/
theorem C9_load_tail_defaults (bc : BlockChain)
    (hnt : bc.storage.tailHash = none) (hput : bc.storage.putTailOk = true) :
    (∀ gb, LoadBlockFromStorage GenesisHash bc.storage = some gb →
      loadTailFromStorage bc =
        .ok (gb, { bc.storage with tailHash := some gb.hash })) ∧
    (LoadBlockFromStorage GenesisHash bc.storage = none →
      bc.storage.putBlockOk GenesisHash = true →
      loadTailFromStorage bc =
        .ok (NewGenesisBlock bc.chainID,
          { bc.storage with
            blocks := (GenesisHash, NewGenesisBlock bc.chainID) :: bc.storage.blocks
            tailHash := some GenesisHash })) := by
  constructor
  · intro gb hgb
    simp [loadTailFromStorage, hnt, loadGenesisFromStorage, hgb,
      storeTailToStorage, hput]
  · intro hmiss hpb
    simp [loadTailFromStorage, hnt, loadGenesisFromStorage, hmiss,
      storeBlockToStorage, hpb, NewGenesisBlock, storeTailToStorage, hput]

/-- Claim C9 witness: both branches at concrete stores — one already
holding a genesis entry, one empty. -/
theorem C9_witness :
    loadTailFromStorage cBCnoTail =
      .ok (cG, { cBCnoTail.storage with tailHash := some 1 }) ∧
    loadTailFromStorage cBCempty =
      .ok (NewGenesisBlock 100,
        { cBCempty.storage with
          blocks := [(GenesisHash, NewGenesisBlock 100)]
          tailHash := some GenesisHash }) := by
  constructor
  · have h := (C9_load_tail_defaults cBCnoTail (by decide) (by decide)).1 cG
      (by decide)
    simpa using h
  · have h := (C9_load_tail_defaults cBCempty (by decide) (by decide)).2
      (by decide) (by decide)
    simpa using h

/-! ### Claim C10: the zero-window call -/

/-- Claim C10 counterexample: with window size 0 and a block other
than the tail, the call does not always panic — when the current tail
is the genesis block, the genesis check precedes the modulo and the
call returns the not-in-canonical-chain error instead. -/
theorem C10_counterexample :
    FetchDescendantInCanonicalChain cBCgen 0 cA 10 = .error .notInCanonical ∧
    FetchDescendantInCanonicalChain cBCgen 0 cA 10 ≠ .error .panicDivZero := by
  decide

/-- Claim C10 (amended): window size 0 is never usable: for a block
whose hash differs from the tail's, the call panics with the modulo by
zero whenever the tail is not the genesis block, and returns the
not-in-canonical-chain error when the tail is genesis; callers must
guarantee a window size of at least 1. -/
theorem C10_window_zero (bc : BlockChain) (b : Block) (fuel : Nat)
    (hf : 1 ≤ fuel) (hne : b.hash ≠ bc.tailBlock.hash) :
    (CheckGenesisBlock bc.tailBlock = false →
      FetchDescendantInCanonicalChain bc 0 b fuel = .error .panicDivZero) ∧
    (CheckGenesisBlock bc.tailBlock = true →
      FetchDescendantInCanonicalChain bc 0 b fuel = .error .notInCanonical) := by
  obtain ⟨f, rfl⟩ : ∃ f, fuel = f + 1 := ⟨fuel - 1, by omega⟩
  constructor <;> intro hg <;>
    simp [FetchDescendantInCanonicalChain, fetchLoop, hg, Ne.symm hne]

/-- Claim C10 witness: the amended dichotomy at the two concrete
states. -/
theorem C10_witness :
    FetchDescendantInCanonicalChain cBC 0 cA 10 = .error .panicDivZero ∧
    FetchDescendantInCanonicalChain cBCgen 0 cA 10 = .error .notInCanonical :=
  ⟨(C10_window_zero cBC cA 10 (by decide) (by decide)).1 (by decide),
   (C10_window_zero cBCgen cA 10 (by decide) (by decide)).2 (by decide)⟩

/-! ### Claim C6: termination and abort-soundness of the search -/

/-- Claim C6: on a block resolved in the chain, with the parent-linked
chains from the current tail and from the resolved target down to
their sole common block given, the common-ancestor walk terminates and
returns exactly that block (at or before genesis); and — for every
invocation whatsoever — an `.ok` result is always reachable by parent
links from both sides, so a missing parent link can only abort the
operation, never make it return a wrong answer. -/
theorem C6_ancestor_search (bc : BlockChain) (blk t0 c : Block)
    (X' Y' : List Block) (fuel : Nat)
    (hres : GetBlock bc blk.hash = some t0)
    (hX : chainB (GetBlock bc) (X' ++ [c]) = true)
    (hXh : (X' ++ [c]).head? = some bc.tailBlock)
    (hY : chainB (GetBlock bc) (Y' ++ [c]) = true)
    (hYh : (Y' ++ [c]).head? = some t0)
    (hcom : ∀ x ∈ X' ++ [c], ∀ y ∈ Y' ++ [c], x.hash = y.hash → x = c ∧ y = c)
    (hfuel : X'.length + Y'.length + 2 ≤ fuel) :
    FindCommonAncestorWithTail bc blk fuel = .ok c ∧
    (∀ (bc' : BlockChain) (blk' : Block) (fuel' : Nat) (a : Block),
      FindCommonAncestorWithTail bc' blk' fuel' = .ok a →
      ∃ t1, (GetBlock bc' blk'.hash = some t1 ∨
          (GetBlock bc' blk'.hash = none ∧
            GetBlock bc' blk'.parentHash = some t1)) ∧
        Reaches (GetBlock bc') t1 a ∧
        ∃ t2, Reaches (GetBlock bc') bc'.tailBlock t2 ∧ t2.hash = a.hash) :=
  ⟨FCAW_complete bc blk t0 c X' Y' fuel hres hX hXh hY hYh hcom hfuel,
   fun bc' blk' fuel' a h => FCAW_sound bc' blk' fuel' a h⟩

/-- Claim C6 witness: the two-branch scenario chain, searching from
the superseded tip D. -/
theorem C6_witness : FindCommonAncestorWithTail cBC cD 10 = .ok cG :=
  (C6_ancestor_search cBC cD cD cG [cB, cA] [cD, cC] 10 (by decide) (by decide)
    (by decide) (by decide) (by decide) (by decide) (by decide)).1

/-! ### Claim C4: pure forward tail extension -/

/-- Claim C4: a `SetTailBlock` whose new tail descends from the old
tail through resolvable parent links reverts nothing: no transactions
return to the pool, no revert gauge or revert meter fires, and only
the head-height and tail-hash-fingerprint gauges are updated. -/
theorem C4_forward_extension (bc : BlockChain) (newTail : Block)
    (S' : List Block) (fuel : Nat)
    (hS : chainB (GetBlock bc) (S' ++ [bc.tailBlock]) = true)
    (hSh : (S' ++ [bc.tailBlock]).head? = some newTail)
    (hres : GetBlock bc bc.tailBlock.hash = some bc.tailBlock)
    (hdist : ∀ x ∈ S', x.hash ≠ bc.tailBlock.hash)
    (hgen : GenReach (GetBlock bc) newTail)
    (hfuel : S'.length + 2 ≤ fuel) :
    ∃ out, SetTailBlock bc newTail fuel = .ok out ∧
      out.returnedTxs = [] ∧ out.bc.txPool = bc.txPool ∧
      out.revertGauge = none ∧ out.revertMeterMarked = false ∧
      out.heightGauge = some newTail.height ∧
      (∃ v, out.tailHashGauge = some v) ∧
      out.bc.tailBlock = newTail := by
  have hfun : GetBlock (swapTail bc newTail) = GetBlock bc :=
    GetBlock_swapTail bc newTail
  have hfc : FindCommonAncestorWithTail (swapTail bc newTail) bc.tailBlock fuel
      = .ok bc.tailBlock := by
    apply FCAW_complete (swapTail bc newTail) bc.tailBlock bc.tailBlock
      bc.tailBlock S' [] fuel
    · rw [hfun]; exact hres
    · rw [hfun]; exact hS
    · exact hSh
    · rfl
    · simp
    · intro x hx y hy hxy
      have hy' : y = bc.tailBlock := by simpa using hy
      subst hy'
      rcases List.mem_append.mp hx with hx' | hx'
      · exact absurd hxy (hdist x hx')
      · exact ⟨by simpa using hx', rfl⟩
    · simpa using hfuel
  obtain ⟨ah, hah, _⟩ :=
    ancestorWalk_ok (swapTail bc newTail) 6 newTail (hfun ▸ hgen)
  have hga : getAncestorHash (swapTail bc newTail) 6 = .ok ah.hash := by
    unfold getAncestorHash
    have ht2 : (swapTail bc newTail).tailBlock = newTail := rfl
    rw [ht2, hah]
    rfl
  refine ⟨{ bc := swapTail bc newTail
            heightGauge := some newTail.height
            tailHashGauge := some ((ah.hash % 65536 : Nat) : Int)
            revertGauge := none
            revertMeterMarked := false
            returnedTxs := [] }, ?_, rfl, rfl, rfl, rfl, rfl, ⟨_, rfl⟩, rfl⟩
  simp only [SetTailBlock, hfc, hga, hashToInt64]
  simp

/-- Claim C4 witness: the forward extension A → B on the concrete
chain. -/
theorem C4_witness :
    ∃ out, SetTailBlock cBCa cB 10 = .ok out ∧
      out.returnedTxs = [] ∧ out.bc.txPool = [] ∧
      out.revertGauge = none ∧ out.revertMeterMarked = false ∧
      out.heightGauge = some 2 ∧ (∃ v, out.tailHashGauge = some v) ∧
      out.bc.tailBlock = cB := by
  have h := C4_forward_extension cBCa cB [cB] 10 (by decide) (by decide)
    (by decide) (by decide)
    (GenReach.step cB cA (by decide) (by decide)
      (GenReach.step cA cG (by decide) (by decide)
        (GenReach.base cG (by decide))))
    (by decide)
  simpa [cBCa, cBC, cB, mkB] using h

/-! ### Claim C3: reorganization onto a competing branch -/

/-- Claim C3: for two chains diverging from a fork block `g` — the old
tail's chain `T' ++ [g]` and the new tail's chain `S' ++ [g]`, with no
hash shared except `g`'s — `FindCommonAncestorWithTail` (after the
tail swap) resolves exactly the fork block, and `SetTailBlock` to the
other branch's tip reports a revert count equal to the divergence
depth from the old tail and returns each abandoned block's
transactions to the pool exactly once, in walk order.  The
G → A → B versus G → C → D scenario is the concrete witness. -/
theorem C3_reorg_scenario (bc : BlockChain) (newTail g : Block)
    (T' S' : List Block) (fuel : Nat)
    (hT : chainB (GetBlock bc) (T' ++ [g]) = true)
    (hTh : (T' ++ [g]).head? = some bc.tailBlock)
    (hTne : T' ≠ [])
    (hS : chainB (GetBlock bc) (S' ++ [g]) = true)
    (hSh : (S' ++ [g]).head? = some newTail)
    (hres : GetBlock bc bc.tailBlock.hash = some bc.tailBlock)
    (hcom : ∀ x ∈ T' ++ [g], ∀ y ∈ S' ++ [g], x.hash = y.hash → x = g ∧ y = g)
    (hfuel : T'.length + S'.length + 2 ≤ fuel) :
    FindCommonAncestorWithTail (swapTail bc newTail) bc.tailBlock fuel = .ok g ∧
    ∃ out, SetTailBlock bc newTail fuel = .ok out ∧
      out.revertGauge = some T'.length ∧ out.revertMeterMarked = true ∧
      out.returnedTxs = T'.flatMap Block.txs ∧
      out.bc.txPool = bc.txPool ++ T'.flatMap Block.txs ∧
      out.bc.tailBlock = newTail := by
  have hfun : GetBlock (swapTail bc newTail) = GetBlock bc :=
    GetBlock_swapTail bc newTail
  have hth : g.height + T'.length = bc.tailBlock.height :=
    chainB_height (T' ++ [g]) bc.tailBlock g T'.length hT hTh
      (List.getElem?_concat_length T' g)
  have hTnotg : ∀ p ∈ T', p.hash ≠ g.hash := by
    intro p hp heq
    obtain ⟨i, hi, hgi⟩ := List.getElem_of_mem hp
    have hgi2 : (T' ++ [g])[i]? = some p := by
      rw [List.getElem?_append]
      rw [if_pos hi, List.getElem?_eq_getElem hi, hgi]
    have hip : p.height + i = bc.tailBlock.height :=
      chainB_height (T' ++ [g]) bc.tailBlock p i hT hTh hgi2
    have hpg := (hcom p (List.mem_append.mpr (Or.inl hp)) g (by simp) heq).1
    rw [hpg] at hip
    omega
  have hneq : ¬ (g.hash = bc.tailBlock.hash) := by
    intro heq
    cases T' with
    | nil => exact hTne rfl
    | cons t rest =>
      have ht2 : t = bc.tailBlock := by simpa using hTh
      have := hTnotg t (by simp)
      rw [ht2] at this
      exact this heq.symm
  have hfc : FindCommonAncestorWithTail (swapTail bc newTail) bc.tailBlock fuel
      = .ok g := by
    apply FCAW_complete (swapTail bc newTail) bc.tailBlock bc.tailBlock g
      S' T' fuel
    · rw [hfun]; exact hres
    · rw [hfun]; exact hS
    · exact hSh
    · rw [hfun]; exact hT
    · exact hTh
    · intro x hx y hy hxy
      exact ⟨(hcom y hy x hx hxy.symm).2, (hcom y hy x hx hxy.symm).1⟩
    · omega
  have hrl : revertLoop (swapTail bc newTail) g.hash fuel bc.tailBlock 0 [] =
      .ok (T'.length, T'.flatMap Block.txs) := by
    have h := revert_run (swapTail bc newTail) T' g bc.tailBlock 0 [] fuel
      (by rw [hfun]; exact hT) hTh hTnotg (by omega)
    simpa using h
  have hpos : 0 < T'.length := List.length_pos.mpr hTne
  have hst : SetTailBlock bc newTail fuel =
      .ok { bc := { swapTail bc newTail with
                    txPool := bc.txPool ++ T'.flatMap Block.txs }
            heightGauge := none
            tailHashGauge := none
            revertGauge := some T'.length
            revertMeterMarked := true
            returnedTxs := T'.flatMap Block.txs } := by
    simp only [SetTailBlock, hfc, if_neg hneq, hrl]
    simp [hpos, swapTail]
  exact ⟨hfc, _, hst, rfl, rfl, rfl, rfl, rfl⟩

/-- Claim C3 witness: genesis G with canonical chain G → A → B (tail
B) and competing branch G → C → D; `setTail(D)` finds ancestor G,
reports a revert count of 2, and returns B's and A's transactions to
the pool. -/
theorem C3_witness :
    FindCommonAncestorWithTail (swapTail cBC cD) cBC.tailBlock 10 = .ok cG ∧
    ∃ out, SetTailBlock cBC cD 10 = .ok out ∧
      out.revertGauge = some 2 ∧ out.revertMeterMarked = true ∧
      out.returnedTxs = [31, 21, 22] ∧
      out.bc.txPool = [31, 21, 22] ∧ out.bc.tailBlock = cD := by
  have h := C3_reorg_scenario cBC cD cG [cB, cA] [cD, cC] 10 (by decide)
    (by decide) (by decide) (by decide) (by decide) (by decide) (by decide)
    (by decide)
  simpa [cBC, cB, cA, cD, cC, cG, mkB] using h

/-! ### Claim C2: the descendant window ring buffer -/

theorem emod_add_one (a n : Int) : (a % n + 1) % n = (a + 1) % n := by
  rw [Int.add_emod (a % n) 1 n, Int.emod_emod_of_dvd a dvd_rfl, ← Int.add_emod]

theorem emod_add_n_sub_one (a n : Int) : (a % n + n - 1) % n = (a - 1) % n := by
  have h1 : a % n + n - 1 = (a % n - 1) + n * 1 := by ring
  rw [h1, Int.add_mul_emod_self_left]
  rw [Int.sub_emod (a % n) 1 n, Int.emod_emod_of_dvd a dvd_rfl, ← Int.sub_emod]

theorem ringFold_length (n : Nat) :
    ∀ (P : List Block) (st : Int × List (Option Block)),
      ((P.foldl (ringStep n) st).2).length = st.2.length := by
  intro P
  induction P with
  | nil => intro st; rfl
  | cons p P' ih =>
    intro st
    rw [List.foldl_cons, ih]
    simp [ringStep]

theorem ringFold_idx (n : Nat) (_hn : 1 ≤ n) :
    ∀ (P : List Block) (q0 : List (Option Block)), P ≠ [] →
      (P.foldl (ringStep n) ((-1 : Int), q0)).1 =
        ((P.length : Int) - 1) % (n : Int) := by
  intro P
  induction P using List.reverseRecOn with
  | nil => intro q0 h; exact absurd rfl h
  | append_singleton P' b0 ih =>
    intro q0 _
    rw [List.foldl_append]
    by_cases hpe : P' = []
    · subst hpe
      simp [ringStep]
    · show ((P'.foldl (ringStep n) ((-1 : Int), q0)).1 + 1) % (n : Int) = _
      rw [ih q0 hpe, emod_add_one]
      congr 1
      simp only [List.length_append, List.length_cons, List.length_nil]
      push_cast
      ring

/-- The circular buffer after processing `P` holds, at the slot the
output loop visits `t` steps before the most recent one, exactly the
`t`-th most recently inserted block. -/
theorem ringFold_get (n : Nat) (hn : 1 ≤ n) :
    ∀ (P : List Block) (t : Nat), t < n →
      ((P.foldl (ringStep n)
          ((-1 : Int), List.replicate n (none : Option Block))).2)[
        (((P.length : Int) - 1 - (t : Int)) % (n : Int)).toNat]? =
        some (P.reverse[t]?) := by
  intro P
  induction P using List.reverseRecOn with
  | nil =>
    intro t ht
    have h0 : (0 : Int) ≤ (((0 : Int) - 1 - (t : Int)) % (n : Int)) :=
      Int.emod_nonneg _ (by omega)
    have h1 : (((0 : Int) - 1 - (t : Int)) % (n : Int)) < n :=
      Int.emod_lt_of_pos _ (by omega)
    simp only [List.foldl_nil, List.length_nil, Nat.cast_zero]
    rw [List.getElem?_replicate, if_pos (by omega)]
    rfl
  | append_singleton P' b0 ih =>
    intro t ht
    rw [List.foldl_append]
    simp only [List.foldl_cons, List.foldl_nil, ringStep]
    set st := P'.foldl (ringStep n)
      ((-1 : Int), List.replicate n (none : Option Block)) with hst
    have hqlen : st.2.length = n := by
      rw [hst, ringFold_length]
      simp
    have hi : (st.1 + 1) % (n : Int) = (P'.length : Int) % (n : Int) := by
      by_cases hpe : P' = []
      · subst hpe
        simp [hst]
      · rw [show st.1 = ((P'.length : Int) - 1) % (n : Int) from by
          rw [hst]; exact ringFold_idx n hn P' _ hpe]
        rw [emod_add_one]
        congr 1
        ring
    have h0 : (0 : Int) ≤ (st.1 + 1) % (n : Int) := Int.emod_nonneg _ (by omega)
    have h1 : (st.1 + 1) % (n : Int) < n := Int.emod_lt_of_pos _ (by omega)
    cases t with
    | zero =>
      have he : ((((P' ++ [b0]).length : Nat) : Int) - 1 - ((0 : Nat) : Int)) %
          (n : Int) = (st.1 + 1) % (n : Int) := by
        rw [hi]
        congr 1
        simp only [List.length_append, List.length_cons, List.length_nil]
        push_cast
        ring
      rw [he, List.getElem?_set_self (by omega)]
      simp [List.reverse_append]
    | succ t2 =>
      have ht2 : t2 < n := by omega
      have hne_int : (((P'.length : Int) - 1 - (t2 : Int)) % (n : Int)) ≠
          ((st.1 + 1) % (n : Int)) := by
        rw [hi]
        intro hE
        rw [Int.emod_eq_emod_iff_emod_sub_eq_zero] at hE
        have hd : (n : Int) ∣ (((P'.length : Int) - 1 - (t2 : Int)) -
            (P'.length : Int)) := Int.dvd_of_emod_eq_zero hE
        have hd2 : (n : Int) ∣ ((t2 : Int) + 1) := by
          have hrw : (((P'.length : Int) - 1 - (t2 : Int)) -
              (P'.length : Int)) = -((t2 : Int) + 1) := by ring
          rw [hrw] at hd
          exact (dvd_neg).mp hd
        have := Int.le_of_dvd (by omega) hd2
        omega
      have he : ((((P' ++ [b0]).length : Nat) : Int) - 1 -
          ((t2 + 1 : Nat) : Int)) % (n : Int) =
          (((P'.length : Int) - 1 - (t2 : Int)) % (n : Int)) := by
        congr 1
        simp only [List.length_append, List.length_cons, List.length_nil]
        push_cast
        ring
      have h2 : (0 : Int) ≤ ((P'.length : Int) - 1 - (t2 : Int)) % (n : Int) :=
        Int.emod_nonneg _ (by omega)
      have h3 : ((P'.length : Int) - 1 - (t2 : Int)) % (n : Int) < n :=
        Int.emod_lt_of_pos _ (by omega)
      rw [he, List.getElem?_set_ne (by omega), ih t2 ht2]
      simp [List.reverse_append]

/-- The walk loop of the descendant query follows the canonical chain
from the tail down to the target and performs exactly the ring-buffer
insertions of the blocks strictly above the target. -/
theorem fetchLoop_run (bc : BlockChain) (b : Block) (n : Nat) (hn : 1 ≤ n) :
    ∀ (P : List Block) (x : Block) (st : Int × List (Option Block)) (fuel : Nat),
      chainB (GetBlock bc) (P ++ [b]) = true → (P ++ [b]).head? = some x →
      (∀ p ∈ P, p.hash ≠ b.hash ∧ CheckGenesisBlock p = false) →
      P.length < fuel →
      fetchLoop bc b.hash n fuel (some x) st.1 st.2 =
        .ok (P.foldl (ringStep n) st) := by
  have hn0 : ¬ n = 0 := by omega
  intro P
  induction P with
  | nil =>
    intro x st fuel _ hh _ hf
    obtain rfl : b = x := by simpa using hh
    obtain ⟨f, rfl⟩ : ∃ f, fuel = f + 1 := ⟨fuel - 1, by omega⟩
    simp [fetchLoop]
  | cons p P' ih =>
    intro x st fuel hc hh hng hf
    obtain rfl : p = x := by simpa using hh
    obtain ⟨f, rfl⟩ : ∃ f, fuel = f + 1 := ⟨fuel - 1, by omega⟩
    have hnp := hng p (by simp)
    cases P' with
    | nil =>
      have hl := chainB_link (l := []) hc
      simp only [fetchLoop]
      rw [if_neg hnp.1, if_neg (by simp [hnp.2]), if_neg hn0, hl.1]
      exact ih b (ringStep n st p) f (by simp [chainB]) (by simp) (by simp)
        (by simp at hf ⊢; omega)
    | cons q P'' =>
      have hl := chainB_link hc
      simp only [fetchLoop]
      rw [if_neg hnp.1, if_neg (by simp [hnp.2]), if_neg hn0, hl.1]
      exact ih q (ringStep n st p) f hl.2.2 (by simp)
        (fun r hr => hng r (by simp [hr])) (by simp at hf ⊢; omega)

/-- The output loop of the descendant query reads the ring buffer
backwards from the most recent slot, producing the reversed window. -/
theorem fetchCollect_spec (n : Nat) (hn : 1 ≤ n) (P : List Block)
    (q : List (Option Block))
    (hq : ∀ t, t < n →
      q[(((P.length : Int) - 1 - (t : Int)) % (n : Int)).toNat]? =
        some (P.reverse[t]?)) :
    ∀ (rem t0 : Nat), rem + t0 ≤ n →
      fetchCollect n q rem ((((P.length : Int) - 1 - (t0 : Int)) % (n : Int))) =
        (P.reverse.drop t0).take rem := by
  intro rem
  induction rem with
  | zero => intro t0 _; simp [fetchCollect]
  | succ rem ih =>
    intro t0 hle
    have ht0 : t0 < n := by omega
    have h0 : (0 : Int) ≤ ((P.length : Int) - 1 - (t0 : Int)) % (n : Int) :=
      Int.emod_nonneg _ (by omega)
    have hnext : ((((P.length : Int) - 1 - (t0 : Int)) % (n : Int)) + (n : Int)
        - 1) % (n : Int) =
        (((P.length : Int) - 1 - ((t0 + 1 : Nat) : Int)) % (n : Int)) := by
      rw [emod_add_n_sub_one]
      congr 1
      push_cast
      ring
    unfold fetchCollect
    rw [if_neg (by omega)]
    cases hrt : P.reverse[t0]? with
    | some b0 =>
      simp only [hq t0 ht0, hrt]
      rw [hnext, ih (t0 + 1) (by omega)]
      obtain ⟨hlt, hbe⟩ := List.getElem?_eq_some.mp hrt
      rw [List.drop_eq_getElem_cons hlt, hbe, List.take_succ_cons]
    | none =>
      simp only [hq t0 ht0, hrt]
      rw [hnext, ih (t0 + 1) (by omega)]
      have hlen : P.reverse.length ≤ t0 := by
        by_contra hcon
        push_neg at hcon
        rw [List.getElem?_eq_getElem hcon] at hrt
        simp at hrt
      rw [List.drop_eq_nil_of_le hlen, List.drop_eq_nil_of_le (by omega)]
      simp

/-- Heights along the reversed window ascend one by one from just
above the target block. -/
theorem chainB_reverse_heights {get : Nat → Option Block} :
    ∀ (P : List Block) (b : Block), chainB get (P ++ [b]) = true →
      P.reverse.map Block.height = List.range' (b.height + 1) P.length := by
  intro P
  induction P with
  | nil => intro b _; simp
  | cons p P' ih =>
    intro b hc
    cases P' with
    | nil =>
      have hl := chainB_link (l := []) hc
      simp [hl.2.1]
    | cons q P'' =>
      have hl := chainB_link hc
      have hq := ih b hl.2.2
      have hqh : b.height + (P''.length + 1) = q.height :=
        chainB_height ((q :: P'') ++ [b]) q b (P''.length + 1) hl.2.2 (by simp)
          (List.getElem?_concat_length (q :: P'') b)
      have hph : p.height = (b.height + 1) + (P''.length + 1) := by
        have := hl.2.1
        omega
      rw [List.reverse_cons, List.map_append, hq]
      have hlen : (p :: q :: P'').length = (P''.length + 1) + 1 := by simp
      rw [hlen, List.range'_concat]
      simp [hph]

/-- Claim C2: on the canonical chain, with `pre` the blocks strictly
between `block` (exclusive) and the tail (inclusive) listed tail
first, `FetchDescendantInCanonicalChain` returns the reversed window
truncated to `n`: exactly the blocks closest to `block`, in ascending
height order — all `L` of them when `L ≤ n`, and the `n` closest ones
(the blocks nearest the tail discarded) when `L > n`. -/
theorem C2_descendant_window (bc : BlockChain) (b : Block) (pre : List Block)
    (n fuel : Nat) (hn : 1 ≤ n)
    (hch : chainB (GetBlock bc) (pre ++ [b]) = true)
    (hh : (pre ++ [b]).head? = some bc.tailBlock)
    (hng : ∀ p ∈ pre, p.hash ≠ b.hash ∧ CheckGenesisBlock p = false)
    (hfuel : pre.length < fuel) :
    FetchDescendantInCanonicalChain bc n b fuel = .ok (pre.reverse.take n) ∧
    (pre.reverse.take n).map Block.height =
      List.range' (b.height + 1) (min n pre.length) ∧
    (pre.length ≤ n → pre.reverse.take n = pre.reverse) := by
  have hmain : FetchDescendantInCanonicalChain bc n b fuel =
      .ok (pre.reverse.take n) := by
    have hrun := fetchLoop_run bc b n hn pre bc.tailBlock
      ((-1 : Int), List.replicate n (none : Option Block)) fuel hch hh hng hfuel
    by_cases hpe : pre = []
    · subst hpe
      simp only [FetchDescendantInCanonicalChain, hrun]
      obtain ⟨m, rfl⟩ : ∃ m, n = m + 1 := ⟨n - 1, by omega⟩
      simp [fetchCollect]
    · have hidx := ringFold_idx n hn pre
        (List.replicate n (none : Option Block)) hpe
      have hq := ringFold_get n hn pre
      have hcol := fetchCollect_spec n hn pre
        ((pre.foldl (ringStep n)
          ((-1 : Int), List.replicate n (none : Option Block))).2) hq n 0
        (by omega)
      have hee : (((pre.length : Int) - 1 - ((0 : Nat) : Int)) % (n : Int)) =
          ((pre.length : Int) - 1) % (n : Int) := by
        congr 1
        push_cast
        ring
      rw [hee] at hcol
      simp only [FetchDescendantInCanonicalChain, hrun, hidx, hcol]
      simp
  have hrev := chainB_reverse_heights pre b hch
  refine ⟨hmain, ?_, fun hle => List.take_of_length_le (by simpa using hle)⟩
  rw [List.map_take, hrev, take_range']

/-- Claim C2 witness: the window query on the concrete chain
G → A → B with tail B and `block` G, once with a window smaller than
the chain distance and once with a larger one. -/
theorem C2_witness :
    FetchDescendantInCanonicalChain cBC 1 cG 10 = .ok [cA] ∧
    FetchDescendantInCanonicalChain cBC 5 cG 10 = .ok [cA, cB] := by
  have h1 := (C2_descendant_window cBC cG [cB, cA] 1 10 (by decide) (by decide)
    (by decide) (by decide) (by decide)).1
  have h2 := (C2_descendant_window cBC cG [cB, cA] 5 10 (by decide) (by decide)
    (by decide) (by decide) (by decide)).1
  constructor
  · simpa using h1
  · simpa using h2

end NebulasChain
